import Mathlib

/-!
Verification of the dependency-tree traversal engine (TreeWalker.py) and the
lazy sequence adapter (generated_list.py) of the xref-tag repository.

Modelling conventions:
* Graph nodes are an arbitrary type with decidable equality.  The Python
  `root_node` argument is truthiness-tested (`if self.root_node`), so it is
  modelled as an `Option Node` (`none` = Python `None`).
* The two parallel Python stacks `node_stack` / `parent_stack` are kept as two
  Lean lists whose HEAD is the top of the stack (Python indexes the top as
  `[-1]` and pushes with `append`); `pop(0)` on the top sibling group takes the
  head of the head list.
* The `cycle_func` callback only performs side effects, so each operation
  returns the ordered list of `(node, parent)` pairs it was invoked on.
* Operations that can raise a Python exception on some states return
  `Option`/`Except`; `none`/`error` means the exception.
-/

namespace XrefTag

/-- State of a `TreeWalker` object: the constructor arguments `root_node` and
`get_children` plus the mutable fields `node_stack`, `parent_stack`,
`history`.  The head of `node_stack`/`parent_stack` is the top of the stack. -/
structure TreeWalker (Node : Type) where
  root_node : Option Node
  get_children : Node → List Node
  node_stack : List (List Node)
  parent_stack : List Node
  history : List Node

/-- Total number of pending nodes on the sibling-group stack. -/
def totalNodes {Node : Type} : List (List Node) → Nat
  | [] => 0
  | l :: ls => l.length + totalNodes ls

/-- TreeWalker.reset: re-initialise the frontier from the root's children and
clear the history (`TreeWalker.py` lines 10-21). -/
def TreeWalker.reset {Node : Type} (w : TreeWalker Node) : TreeWalker Node :=
  let children : List Node :=
    match w.root_node with
    | some r => w.get_children r
    | none => []
  match w.root_node, children with
  | some r, c :: cs =>
      { w with node_stack := [c :: cs], parent_stack := [r], history := [] }
  | _, _ =>
      { w with node_stack := [], parent_stack := [], history := [] }

/-- TreeWalker.__init__: store the arguments and call `reset`. -/
def mkTreeWalker {Node : Type} (root : Option Node) (gc : Node → List Node) :
    TreeWalker Node :=
  TreeWalker.reset
    { root_node := root, get_children := gc, node_stack := [],
      parent_stack := [], history := [] }

/-- TreeWalker.is_done (`TreeWalker.py` lines 23-25). -/
def TreeWalker.is_done {Node : Type} (w : TreeWalker Node) : Bool :=
  w.node_stack.isEmpty

/-- Recursive core of `TreeWalker.next_child` (`TreeWalker.py` lines 44-66),
abstracted over the fields it reads and writes: `gc` is `self.get_children`,
`hist` is `self.history` (only modified on a fresh yield, at the very end),
`ns`/`ps` are `self.node_stack`/`self.parent_stack`.  The result is
`(returned pair, cycle_func invocations in order, (node_stack', parent_stack',
history'))`; the returned pair is `none` for Python's `(None, None)`.  A
`none` overall result is the `IndexError` Python would raise on a state with
an empty sibling group or a too-short parent stack (never reachable from a
constructed walker). -/
def next_child_aux {Node : Type} [DecidableEq Node] (gc : Node → List Node)
    (hist : List Node) :
    List (List Node) → List Node →
    Option (Option (Node × Node) × List (Node × Node) ×
      (List (List Node) × List Node × List Node))
  | [], ps => some (none, [], ([], ps, hist))
  | [] :: _, _ => none
  | (node :: topRest) :: restStack, ps =>
    match ps with
    | [] => none
    | parent :: parentRest =>
      let s1 : List (List Node) × List Node :=
        match topRest with
        | [] => (restStack, parentRest)
        | t :: ts => ((t :: ts) :: restStack, parent :: parentRest)
      if node ∈ hist then
        match next_child_aux gc hist s1.1 s1.2 with
        | none => none
        | some (res, cycles, fin) => some (res, (node, parent) :: cycles, fin)
      else
        match gc node with
        | [] => some (some (node, parent), [], (s1.1, s1.2, hist ++ [node]))
        | c :: cs =>
            some (some (node, parent), [],
              ((c :: cs) :: s1.1, node :: s1.2, hist ++ [node]))
termination_by ns _ => totalNodes ns
decreasing_by
  cases topRest <;> simp [totalNodes]

/-- TreeWalker.next_child, assembled on the walker state. -/
def TreeWalker.next_child {Node : Type} [DecidableEq Node]
    (w : TreeWalker Node) :
    Option (Option (Node × Node) × List (Node × Node) × TreeWalker Node) :=
  match next_child_aux w.get_children w.history w.node_stack w.parent_stack with
  | none => none
  | some (res, cycles, (ns, ps, h)) =>
      some (res, cycles,
        { w with node_stack := ns, parent_stack := ps, history := h })

/-- Repeatedly call `next_child`, collecting the yielded `(node, parent)`
pairs and the `cycle_func` invocations, stopping at `(None, None)` or when
the fuel runs out. -/
def run_walk {Node : Type} [DecidableEq Node] :
    Nat → TreeWalker Node →
    Option (List (Node × Node) × List (Node × Node) × TreeWalker Node)
  | 0, w => some ([], [], w)
  | fuel + 1, w =>
    match w.next_child with
    | none => none
    | some (none, cycles, w') => some ([], cycles, w')
    | some (some yp, cycles, w') =>
      match run_walk fuel w' with
      | none => none
      | some (ys, cs, w'') => some (yp :: ys, cycles ++ cs, w'')

/-- Observable output of a run: yields, cycle invocations, final `node_stack`
and final `history` (the final walker record also carries the function field
`get_children`, which has no decidable equality; this projection keeps
concrete statements decidable). -/
def walk_output {Node : Type} [DecidableEq Node] (fuel : Nat)
    (w : TreeWalker Node) :
    Option (List (Node × Node) × List (Node × Node) × List (List Node) ×
      List Node) :=
  match run_walk fuel w with
  | none => none
  | some (ys, cs, w') => some (ys, cs, w'.node_stack, w'.history)

/-- Nodes reachable from `root` by at least one edge of the `gc` graph. -/
inductive ReachesFrom {Node : Type} (gc : Node → List Node) (root : Node) :
    Node → Prop
  | base {v : Node} : v ∈ gc root → ReachesFrom gc root v
  | step {u v : Node} : ReachesFrom gc root u → v ∈ gc u →
      ReachesFrom gc root v

/-- Flatten the sibling-group stack into the list of pending nodes in pop
order. -/
def stackFlat {Node : Type} : List (List Node) → List Node
  | [] => []
  | l :: ls => l ++ stackFlat ls

/-- Well-formedness of the two frontier stacks: every pending sibling group is
non-empty and the parent stack has one entry per sibling group. -/
def GoodS {Node : Type} (ns : List (List Node)) (ps : List Node) : Prop :=
  (∀ l ∈ ns, l ≠ []) ∧ ps.length = ns.length

/-- The ordering contract of a yield sequence: each yielded pair's parent was
already in the history (or is the root) at the moment of the yield, the
history growing by the yielded node afterwards. -/
def parentOk {Node : Type} (root : Option Node) :
    List Node → List (Node × Node) → Prop
  | _, [] => True
  | hist, (n, p) :: ys => (p ∈ hist ∨ some p = root) ∧
      parentOk root (hist ++ [n]) ys

/-- Diamond graph used as a concrete instance: `0 → 1, 2`; `1 → 3`; `2 → 3`;
node `3` is reached along two paths. -/
def diamondChildren : Fin 4 → List (Fin 4)
  | 0 => [1, 2]
  | 1 => [3]
  | 2 => [3]
  | 3 => []

/-- State of a `generated_list` object (`generated_list.py` lines 22-26).
The producer `gen_fn(*gen_args)` is deterministic for our purposes, so it is
modelled by the list `gen` of values one invocation yields; `gen = none`
plays the role of `gen_fn = None` (the materialized state, the producer and
its arguments both discarded).  `store` is the contents of the underlying
built-in list, `nonzero` the cached truthiness flag. -/
structure generated_list (α : Type) where
  gen : Option (List α)
  store : List α
  nonzero : Option Bool

/-- generated_list.__init__: empty backing store, producer kept, no cached
truthiness. -/
def mkGeneratedList {α : Type} (prod : List α) : generated_list α :=
  { gen := some prod, store := [], nonzero := none }

/-- generated_list.Expand (lines 28-38): guarded by `if self.gen_fn`; extends
the backing store with the produced values and forgets the producer. -/
def generated_list.Expand {α : Type} (gl : generated_list α) :
    generated_list α :=
  match gl.gen with
  | some prod =>
      { gen := none, store := gl.store ++ prod, nonzero := gl.nonzero }
  | none => gl

/-- The guard `if self.gen_fn` of `Expand`: exactly when it is true does a
call to `Expand` invoke the producer. -/
def generated_list.Expand_invokes_producer {α : Type}
    (gl : generated_list α) : Bool :=
  gl.gen.isSome

/-- generated_list.__iter__ (lines 269-273): a deferred list hands out a
fresh producer run, a materialized one iterates the backing store. -/
def generated_list.iter {α : Type} (gl : generated_list α) : List α :=
  match gl.gen with
  | some prod => prod
  | none => gl.store

/-- Truthiness of a Python value that is either a real bool or `None` (the
value `__contains__` returns on the materialized path, where the source is
missing a `return`). -/
def truthy : Option Bool → Bool
  | some b => b
  | none => false

/-- Built-in `list.index`: position of the first occurrence or ValueError. -/
def pyListIndex {α : Type} [DecidableEq α] : List α → α → Except Unit Int
  | [], _ => .error ()
  | x :: xs, v =>
    if v = x then .ok 0
    else
      match pyListIndex xs v with
      | .ok i => .ok (i + 1)
      | .error e => .error e

/-- Scanning loop of `generated_list.index` (lines 177-191) on a deferred
list.  `idx` is the running counter; the second component of the result is
the number of values drawn from the producer (for the lazy-consumption
claims); the first is the found position or `-1`. -/
def index_scan {α : Type} [DecidableEq α] (val : α) (minI : Int)
    (maxI : Option Int) : List α → Nat → Int × Nat
  | [], _ => (-1, 0)
  | x :: xs, idx =>
    if (idx : Int) < minI then
      let r := index_scan val minI maxI xs (idx + 1)
      (r.1, r.2 + 1)
    else if (match maxI with
        | some m => decide ((idx : Int) > m)
        | none => false) then
      (-1, 1)
    else if val = x then ((idx : Int), 1)
    else
      let r := index_scan val minI maxI xs (idx + 1)
      (r.1, r.2 + 1)

/-- generated_list.index (lines 172-193).  The guard (hoisted into
`index_bounds_ok`) follows the source: `min_index` absent or
non-negative, `max_index` absent or `>= min_index` (in Python 2 an int
compares `>=` to `None` as true, so an absent `min_index` passes).  On the deferred path the scan never raises and
returns `-1` for an absent value; otherwise the call falls through to the
built-in `list.index` on the backing store, which raises ValueError for an
absent value.  Result: (value or error, produced-elements consumed, state
after). -/
def index_bounds_ok : Option Int → Option Int → Bool
  | none, none => true
  | none, some _ => true
  | some m, none => decide (0 ≤ m)
  | some m, some mx => decide (0 ≤ m) && decide (m ≤ mx)

def generated_list.index {α : Type} [DecidableEq α] (gl : generated_list α)
    (val : α) (min_index max_index : Option Int) :
    Except Unit Int × Nat × generated_list α :=
  match gl.gen with
  | some prod =>
    if index_bounds_ok min_index max_index then
      let mn := match min_index with | none => 0 | some m => m
      let r := index_scan val mn max_index prod 0
      (.ok r.1, r.2, gl)
    else
      (pyListIndex gl.store val, 0, gl)
  | none => (pyListIndex gl.store val, 0, gl)

/-- generated_list.__contains__ (lines 279-283).  Deferred: `self.index(val)
>= 0` through the scanning path with default bounds.  Materialized: the
source calls the superclass `__contains__` but is missing the `return`, so
the method returns `None` — Python's `in` then coerces that to `False`. -/
def generated_list.contains {α : Type} [DecidableEq α]
    (gl : generated_list α) (val : α) :
    Option Bool × Nat × generated_list α :=
  match gl.gen with
  | some prod =>
    let r := index_scan val 0 none prod 0
    (some (decide (0 ≤ r.1)), r.2, gl)
  | none => (none, 0, gl)

/-- generated_list.count (lines 195-205): counts matches in one producer run
while deferred, in the backing store once materialized. -/
def generated_list.count {α : Type} [DecidableEq α] (gl : generated_list α)
    (val : α) : Nat × generated_list α :=
  match gl.gen with
  | some prod => (prod.count val, gl)
  | none => (gl.store.count val, gl)

/-- generated_list.__len__ (lines 207-216): counts one full producer run
while deferred. -/
def generated_list.len {α : Type} (gl : generated_list α) :
    Nat × generated_list α :=
  match gl.gen with
  | some prod => (prod.length, gl)
  | none => (gl.store.length, gl)

/-- Built-in `list` integer indexing with Python semantics: non-negative
positions from the front, negative positions from the back, IndexError
outside `[-len, len)`. -/
def pyListGet {α : Type} (l : List α) (i : Int) : Except Unit α :=
  if h : 0 ≤ i ∧ i < l.length then
    .ok (l.get ⟨i.toNat, by omega⟩)
  else if h2 : -(l.length : Int) ≤ i ∧ i < 0 then
    .ok (l.get ⟨(i + l.length).toNat, by omega⟩)
  else .error ()

/-- generated_list.__getitem__ with an integer position (lines 218-259): an
integer is not a `slice`, so the guard of the lazy path fails and the else
branch runs `self.Expand()` followed by the built-in indexing — a plain
`seq[i]` read always materializes a deferred list. -/
def generated_list.getitem_int {α : Type} (gl : generated_list α) (i : Int) :
    Except Unit α × generated_list α :=
  let g := gl.Expand
  (pyListGet g.store i, g)

/-- Scanning loop of the lazy slice path of `__getitem__` (lines 243-254).
Note two quirks of the source, both modelled exactly: the loop keeps the
element at position `stop` (`if idx > stop: break` instead of `>=`), and an
absent `stop` makes the loop break at the first position `>= start` (in
Python 2 `idx > None` is true), yielding `[]`. -/
def slice_scan {α : Type} (s : Int) (e : Option Int) (st : Int) :
    List α → Nat → List α
  | [], _ => []
  | x :: xs, idx =>
    if (idx : Int) < s then slice_scan s e st xs (idx + 1)
    else if (match e with
        | none => true
        | some ev => decide ((idx : Int) > ev)) then []
    else if ((idx : Int) - s) % st == 0 then
      x :: slice_scan s e st xs (idx + 1)
    else slice_scan s e st xs (idx + 1)

/-- One pass of built-in extended-slice collection: from index `i`, step
`st` (nonzero), stopping at bound `e`; `fuel` bounds the walk. -/
def pySliceWalk {α : Type} (l : List α) (st : Int) :
    Nat → Int → Int → List α
  | 0, _, _ => []
  | fuel + 1, i, e =>
    if (0 < st && decide (i < e)) || (st < 0 && decide (e < i)) then
      match l.get? i.toNat with
      | some x => x :: pySliceWalk l st fuel (i + st) e
      | none => pySliceWalk l st fuel (i + st) e
    else []

/-- Built-in `list` extended slicing `l[start:stop:step]` (CPython
semantics: step 0 is a ValueError, negative indices count from the back and
are clamped).  Only reached by the materialized path of `__getitem__`, which
no claim exercises. -/
def pyListSlice {α : Type} (l : List α) (start stop step : Option Int) :
    Except Unit (List α) :=
  let n : Int := l.length
  match step with
  | some 0 => .error ()
  | _ =>
    let st := match step with | none => 1 | some k => k
    if 0 < st then
      let s := match start with
        | none => 0
        | some v => max 0 (min n (if v < 0 then v + n else v))
      let e := match stop with
        | none => n
        | some v => max 0 (min n (if v < 0 then v + n else v))
      .ok (pySliceWalk l st l.length s e)
    else
      let s := match start with
        | none => n - 1
        | some v => max (-1) (min (n - 1) (if v < 0 then v + n else v))
      let e := match stop with
        | none => -1
        | some v => max (-1) (min (n - 1) (if v < 0 then v + n else v))
      .ok (pySliceWalk l st l.length s e)

/-- generated_list.__getitem__ with a slice position (lines 218-259).  The
lazy path requires a deferred producer, `start` absent or non-negative and
`stop` absent or `>= start` (an absent `start` passes, since in Python 2 an
int is `>=` `None`); the step is normalized to its magnitude with 0 and
`None` becoming 1.  The lazy path never raises and does not change the
state; any other case materializes and uses built-in slicing. -/
def slice_cond : Option Int → Option Int → Bool
  | none, none => true
  | none, some _ => true
  | some s, none => decide (0 ≤ s)
  | some s, some e => decide (0 ≤ s) && decide (s ≤ e)

def generated_list.getitem_slice {α : Type} (gl : generated_list α)
    (start stop step : Option Int) :
    Except Unit (List α) × generated_list α :=
  match gl.gen with
  | some prod =>
    if slice_cond start stop then
      let s := match start with | none => 0 | some v => v
      let st := match step with
        | none => 1
        | some k => if k == 0 then 1 else if k < 0 then -k else k
      (.ok (slice_scan s stop st prod 0), gl)
    else
      let g := gl.Expand
      (pyListSlice g.store start stop step, g)
  | none =>
    let g := gl.Expand
    (pyListSlice g.store start stop step, g)

/-- Scanning loop of `__getslice__` (lines 293-302): collects the elements
at positions `start..stop` (stop INCLUDED — the source breaks only once
`idx > stop`) and also returns the final value of `idx`, which the caller
tests to decide whether to raise. -/
def getslice_aux {α : Type} (s : Int) (e : Option Int) :
    List α → Nat → List α × Nat
  | [], idx => ([], idx)
  | x :: xs, idx =>
    if (idx : Int) < s then getslice_aux s e xs (idx + 1)
    else if (match e with
        | none => false
        | some ev => decide ((idx : Int) > ev)) then ([], idx)
    else
      let r := getslice_aux s e xs (idx + 1)
      (x :: r.1, r.2)

/-- Built-in Python 2 `list.__getslice__(i, j)`: integer arguments only
(`None` is a TypeError), negative bounds clamped to 0, `j` clamped between
`i` and the length. -/
def pyGetslice2 {α : Type} (l : List α) (start stop : Option Int) :
    Except Unit (List α) :=
  match start, stop with
  | some i, some j =>
    let n : Int := l.length
    let i' := max 0 (min i n)
    let j' := max i' (min j n)
    .ok ((l.drop i'.toNat).take (j' - i').toNat)
  | _, _ => .error ()

/-- generated_list.__getslice__ (lines 285-310), the handler for plain
`seq[a:b]` slices in Python 2.  On the lazy path, after the scan the source
raises `IndexError("List index out of range")` whenever a given `stop` was
not passed (`idx <= end_pos` after the loop), which happens exactly when the
producer has at most `stop` elements; the state is left deferred either
way. -/
def getslice_bounds_ok : Option Int → Option Int → Bool
  | none, none => true
  | none, some e => decide (0 ≤ e)
  | some s, none => decide (0 ≤ s)
  | some s, some e => decide (0 ≤ s) && decide (0 ≤ e)

def generated_list.getslice {α : Type} (gl : generated_list α)
    (start stop : Option Int) :
    Except Unit (List α) × generated_list α :=
  match gl.gen with
  | some prod =>
    if getslice_bounds_ok start stop then
      let s := match start with | none => 0 | some v => v
      let r := getslice_aux s stop prod 0
      if (match stop with
          | none => false
          | some ev => decide ((r.2 : Int) ≤ ev)) then
        (.error (), gl)
      else
        (.ok r.1, gl)
    else
      let g := gl.Expand
      (pyGetslice2 g.store start stop, g)
  | none =>
    let g := gl.Expand
    (pyGetslice2 g.store start stop, g)

/-- generated_list.pop (lines 356-362): after `self.Expand()` both branches
evaluate `super(generated_list.self)` — a typo for `super(generated_list,
self)` — and the attribute access `generated_list.self` raises
AttributeError, so `pop` always raises after materializing. -/
def generated_list.pop {α : Type} (gl : generated_list α)
    (pos : Option Int) : Except Unit α × generated_list α :=
  let g := gl.Expand
  (.error (), g)

/-- Core of `_sequence_comparation` (lines 50-65) for an iterable operand:
walk the two sequences in step, returning the first comparison result the
supplied `cmp_fn` makes truthy; if one side runs out first the source feeds
the int pairs `(1, 0)` (self longer), `(0, 1)` (other longer) or `(0, 0)`
(equal length) to `cmp_fn`, whose results are the three sentinel
parameters. -/
def sequence_comparation {α β : Type} (tb : β → Bool) (cmpE : α → α → β)
    (sSelfLonger sOtherLonger sEqualLen : β) : List α → List α → β
  | [], [] => sEqualLen
  | [], _ :: _ => sOtherLonger
  | _ :: _, [] => sSelfLonger
  | x :: xs, y :: ys =>
    let r := cmpE x y
    if tb r then r
    else sequence_comparation tb cmpE sSelfLonger sOtherLonger sEqualLen xs ys

/-- Lexicographic strict order on plain ordered sequences, as the spec
describes deferred comparison — decided at the first differing index, the
shorter side smaller when one is a proper front segment of the other.  This
is also the behaviour of Python 2's built-in list `<`. -/
def lex_lt {α : Type} [LinearOrder α] : List α → List α → Bool
  | _, [] => false
  | [], _ :: _ => true
  | x :: xs, y :: ys =>
    if x < y then true else if y < x then false else lex_lt xs ys

/-- Three-way lexicographic comparison of plain ordered sequences (the
specification's description of `__cmp__`). -/
def lex_cmp {α : Type} [LinearOrder α] : List α → List α → Int
  | [], [] => 0
  | [], _ :: _ => -1
  | _ :: _, [] => 1
  | x :: xs, y :: ys =>
    if x < y then -1 else if y < x then 1 else lex_cmp xs ys

/-- generated_list.__cmp__ (lines 69-82) against an iterable operand.
Deferred: `_sequence_comparation` with `cmp_fn l r = -1 if l < r else (1 if
l > r else 0)`; the sentinels are that lambda applied to `(1,0)`, `(0,1)`,
`(0,0)`.  Materialized: Python 2 lists have no `__cmp__` attribute, so the
source falls into branches that call `super(self, ...)` — a malformed
`super` call raising TypeError — modelled as the error case. -/
def generated_list.cmp {α : Type} [LinearOrder α] (gl : generated_list α)
    (other : List α) : Except Unit Int :=
  match gl.gen with
  | some prod =>
    .ok (sequence_comparation (fun r => decide (r ≠ 0))
      (fun x y => if x < y then (-1 : Int) else if y < x then 1 else 0)
      1 (-1) 0 prod other)
  | none => .error ()

/-- generated_list.__lt__ (lines 84-91) against an iterable operand.
Deferred: `_sequence_comparation` with `cmp_fn l r = l < r`; the sentinels
`false, true, false` are that lambda applied to `(1,0)`, `(0,1)`, `(0,0)`.
Materialized: the built-in list `<`, which is lexicographic. -/
def generated_list.lt {α : Type} [LinearOrder α] (gl : generated_list α)
    (other : List α) : Bool :=
  match gl.gen with
  | some prod =>
    sequence_comparation (fun b => b) (fun x y => decide (x < y))
      false true false prod other
  | none => lex_lt gl.store other

/-- generated_list.__eq__ (lines 102-109) against an iterable operand.
Deferred: `not _sequence_comparation(other, lambda l, r: not l == r)`; the
sentinels `true, true, false` are that lambda at `(1,0)`, `(0,1)`, `(0,0)`.
Materialized: built-in list equality. -/
def generated_list.eq {α : Type} [DecidableEq α] (gl : generated_list α)
    (other : List α) : Bool :=
  match gl.gen with
  | some prod =>
    ! sequence_comparation (fun b => b) (fun x y => ! (x == y))
      true true false prod other
  | none => gl.store == other

/-- The `_sequence_comparation` path for a non-iterable operand (lines
44-48): `other.__iter__` raises AttributeError and the handler calls the
unbound name `Expand` (the `self.` is missing), so a deferred comparison
with a non-iterable operand raises NameError instead of materializing; a
materialized `__cmp__` raises through the malformed `super(self, ...)`
calls.  Either way the comparison never produces a value. -/
def generated_list.compare_noniterable {α : Type} (gl : generated_list α) :
    Except Unit Int :=
  match gl.gen with
  | some _ => .error ()
  | none => .error ()

/-- The elements of `l` at the positions in the closed interval `[s, e]`
congruent to `s` modulo the step `st`: the slice window the source actually
implements (stop INCLUDED, step taken by magnitude). -/
def slice_incl {α : Type} (s e st : Int) (l : List α) : List α :=
  (l.enum.filter (fun p => decide (s ≤ (p.1 : Int)) &&
    decide ((p.1 : Int) ≤ e) && (((p.1 : Int) - s) % st == 0))).map Prod.snd

/-- Step normalization of the lazy slice path of `__getitem__` (lines
236-241): absent or zero step becomes 1, a negative step its magnitude. -/
def norm_step : Option Int → Int
  | none => 1
  | some k => if k == 0 then 1 else if k < 0 then -k else k

theorem next_child_aux_total {Node : Type} [DecidableEq Node]
    (gc : Node → List Node) :
    ∀ (k : Nat) (ns : List (List Node)) (ps hist : List Node),
      totalNodes ns ≤ k → GoodS ns ps →
      ∃ res cs ns' ps' hist',
        next_child_aux gc hist ns ps = some (res, cs, (ns', ps', hist')) ∧
        GoodS ns' ps' := by
  intro k
  induction k with
  | zero =>
    intro ns ps hist hk hg
    match ns, hg with
    | [], hgE =>
      exact ⟨none, [], [], ps, hist, by simp [next_child_aux], hgE⟩
    | l :: ls, ⟨hne, _⟩ =>
      exfalso
      have : l ≠ [] := hne l (by simp)
      cases l with
      | nil => exact this rfl
      | cons a as => simp [totalNodes] at hk
  | succ k ih =>
    intro ns ps hist hk hg
    match ns, ps, hg with
    | [], ps, hgE =>
      exact ⟨none, [], [], ps, hist, by simp [next_child_aux], hgE⟩
    | l :: ls, [], ⟨hne, hlen⟩ =>
      exfalso; simp at hlen
    | [] :: ls, parent :: parentRest, ⟨hne, hlen⟩ =>
      exact absurd rfl (hne [] (by simp))
    | (node :: topRest) :: restStack, parent :: parentRest, ⟨hne, hlen⟩ =>
      simp [List.length] at hlen
      by_cases hmem : node ∈ hist
      · cases topRest with
        | nil =>
          have hg1 : GoodS restStack parentRest :=
            ⟨fun l hl => hne l (by simp [hl]), by omega⟩
          have hk1 : totalNodes restStack ≤ k := by
            simp [totalNodes] at hk; omega
          obtain ⟨res, cs, ns', ps', hist', heq, hg'⟩ :=
            ih restStack parentRest hist hk1 hg1
          refine ⟨res, (node, parent) :: cs, ns', ps', hist', ?_, hg'⟩
          simp [next_child_aux, hmem, heq]
        | cons t ts =>
          have hg1 : GoodS ((t :: ts) :: restStack) (parent :: parentRest) :=
            ⟨fun l hl => by
              rcases List.mem_cons.mp hl with h | h
              · simp [h]
              · exact hne l (by simp [h]),
             by simp; omega⟩
          have hk1 : totalNodes ((t :: ts) :: restStack) ≤ k := by
            simp [totalNodes] at hk ⊢; omega
          obtain ⟨res, cs, ns', ps', hist', heq, hg'⟩ :=
            ih ((t :: ts) :: restStack) (parent :: parentRest) hist hk1 hg1
          refine ⟨res, (node, parent) :: cs, ns', ps', hist', ?_, hg'⟩
          simp [next_child_aux, hmem, heq]
      · cases topRest with
        | nil =>
          cases hgc : gc node with
          | nil =>
            refine ⟨some (node, parent), [], restStack, parentRest,
              hist ++ [node], by simp [next_child_aux, hmem, hgc], ?_⟩
            exact ⟨fun l hl => hne l (by simp [hl]), by omega⟩
          | cons c cs0 =>
            refine ⟨some (node, parent), [], (c :: cs0) :: restStack,
              node :: parentRest, hist ++ [node],
              by simp [next_child_aux, hmem, hgc], ?_⟩
            refine ⟨fun l hl => ?_, by simp; omega⟩
            rcases List.mem_cons.mp hl with h | h
            · simp [h]
            · exact hne l (by simp [h])
        | cons t ts =>
          cases hgc : gc node with
          | nil =>
            refine ⟨some (node, parent), [], (t :: ts) :: restStack,
              parent :: parentRest, hist ++ [node],
              by simp [next_child_aux, hmem, hgc], ?_⟩
            refine ⟨fun l hl => ?_, by simp; omega⟩
            rcases List.mem_cons.mp hl with h | h
            · simp [h]
            · exact hne l (by simp [h])
          | cons c cs0 =>
            refine ⟨some (node, parent), [], (c :: cs0) :: (t :: ts) :: restStack,
              node :: parent :: parentRest, hist ++ [node],
              by simp [next_child_aux, hmem, hgc], ?_⟩
            refine ⟨fun l hl => ?_, by simp; omega⟩
            rcases List.mem_cons.mp hl with h | h
            · simp [h]
            rcases List.mem_cons.mp h with h' | h'
            · simp [h']
            · exact hne l (by simp [h'])

theorem next_child_aux_spec {Node : Type} [DecidableEq Node]
    (gc : Node → List Node) :
    ∀ (k : Nat) (ns : List (List Node)) (ps hist : List Node)
      (res : Option (Node × Node)) (cs : List (Node × Node))
      (ns' : List (List Node)) (ps' hist' : List Node),
      totalNodes ns ≤ k →
      next_child_aux gc hist ns ps = some (res, cs, (ns', ps', hist')) →
      (∀ c ∈ cs, c.1 ∈ hist ∧ c.2 ∈ ps) ∧
      (res = none → hist' = hist ∧ ns' = [] ∧
        stackFlat ns = cs.map Prod.fst ∧ ∀ q ∈ ps', q ∈ ps) ∧
      (∀ n p, res = some (n, p) → n ∉ hist ∧ hist' = hist ++ [n] ∧ p ∈ ps ∧
        (∀ q ∈ ps', q ∈ ps ∨ q = n) ∧
        ∃ rest, stackFlat ns = cs.map Prod.fst ++ n :: rest ∧
          stackFlat ns' = gc n ++ rest) := by
  intro k
  induction k with
  | zero =>
    intro ns ps hist res cs ns' ps' hist' hk h
    match ns, hk, h with
    | [], hk, h =>
      simp only [next_child_aux, Option.some_inj, Prod.mk.injEq] at h
      obtain ⟨h1, h2, h3, h4, h5⟩ := h
      subst h1; subst h2; subst h3; subst h4; subst h5
      refine ⟨by simp, fun _ => ⟨rfl, rfl, rfl, fun q hq => hq⟩, ?_⟩
      intro n p hnp; exact absurd hnp (by simp)
    | [] :: ls, hk, h => simp [next_child_aux] at h
    | (a :: as) :: ls, hk, h => simp [totalNodes] at hk
  | succ k ih =>
    intro ns ps hist res cs ns' ps' hist' hk h
    match ns, hk, h with
    | [], hk, h =>
      simp only [next_child_aux, Option.some_inj, Prod.mk.injEq] at h
      obtain ⟨h1, h2, h3, h4, h5⟩ := h
      subst h1; subst h2; subst h3; subst h4; subst h5
      refine ⟨by simp, fun _ => ⟨rfl, rfl, rfl, fun q hq => hq⟩, ?_⟩
      intro n p hnp; exact absurd hnp (by simp)
    | [] :: ls, hk, h => simp [next_child_aux] at h
    | (node :: topRest) :: restStack, hk, h =>
      match ps, h with
      | [], h => simp [next_child_aux] at h
      | parent :: parentRest, h =>
        by_cases hmem : node ∈ hist
        · cases topRest with
          | nil =>
            simp only [next_child_aux, hmem, if_true] at h
            rcases hrec : next_child_aux gc hist restStack parentRest with
              _ | ⟨res0, cs0, ns0, ps0, hist0⟩ <;> rw [hrec] at h
            · simp at h
            · simp only [Option.some_inj, Prod.mk.injEq] at h
              obtain ⟨h1, h2, h3, h4, h5⟩ := h
              subst h1; subst h2; subst h3; subst h4; subst h5
              have hk1 : totalNodes restStack ≤ k := by
                simp [totalNodes] at hk; omega
              obtain ⟨ih1, ih2, ih3⟩ :=
                ih restStack parentRest hist _ _ _ _ _ hk1 hrec
              refine ⟨?_, ?_, ?_⟩
              · intro c hc
                rcases List.mem_cons.mp hc with h | h
                · subst h; exact ⟨hmem, by simp⟩
                · exact ⟨(ih1 c h).1, List.mem_cons_of_mem _ (ih1 c h).2⟩
              · intro hres
                obtain ⟨a1, a2, a3, a4⟩ := ih2 hres
                refine ⟨a1, a2, ?_, fun q hq => List.mem_cons_of_mem _ (a4 q hq)⟩
                simp [stackFlat, a3]
              · intro n p hres
                obtain ⟨a1, a2, a3, a4, rest, a5, a6⟩ := ih3 n p hres
                refine ⟨a1, a2, List.mem_cons_of_mem _ a3, ?_, rest, ?_, a6⟩
                · intro q hq
                  rcases a4 q hq with h | h
                  · exact Or.inl (List.mem_cons_of_mem _ h)
                  · exact Or.inr h
                · simp [stackFlat, a5]
          | cons t ts =>
            simp only [next_child_aux, hmem, if_true] at h
            rcases hrec : next_child_aux gc hist ((t :: ts) :: restStack)
                (parent :: parentRest) with
              _ | ⟨res0, cs0, ns0, ps0, hist0⟩ <;> rw [hrec] at h
            · simp at h
            · simp only [Option.some_inj, Prod.mk.injEq] at h
              obtain ⟨h1, h2, h3, h4, h5⟩ := h
              subst h1; subst h2; subst h3; subst h4; subst h5
              have hk1 : totalNodes ((t :: ts) :: restStack) ≤ k := by
                simp [totalNodes] at hk ⊢; omega
              obtain ⟨ih1, ih2, ih3⟩ :=
                ih ((t :: ts) :: restStack) (parent :: parentRest) hist
                  _ _ _ _ _ hk1 hrec
              refine ⟨?_, ?_, ?_⟩
              · intro c hc
                rcases List.mem_cons.mp hc with h | h
                · subst h; exact ⟨hmem, by simp⟩
                · exact ih1 c h
              · intro hres
                obtain ⟨a1, a2, a3, a4⟩ := ih2 hres
                refine ⟨a1, a2, ?_, a4⟩
                simp only [stackFlat] at a3 ⊢
                simp only [List.cons_append, List.map_cons]
                rw [← a3]
                simp
              · intro n p hres
                obtain ⟨a1, a2, a3, a4, rest, a5, a6⟩ := ih3 n p hres
                refine ⟨a1, a2, a3, a4, rest, ?_, a6⟩
                simp only [stackFlat] at a5 ⊢
                simp only [List.cons_append, List.map_cons]
                rw [← a5]
                simp
        · cases topRest with
          | nil =>
            cases hgc : gc node with
            | nil =>
              simp only [next_child_aux, hmem, if_false, hgc,
                Option.some_inj, Prod.mk.injEq] at h
              obtain ⟨h1, h2, h3, h4, h5⟩ := h
              subst h1; subst h2; subst h3; subst h4; subst h5
              refine ⟨by simp, by simp, ?_⟩
              intro n p hnp
              rw [Option.some_inj, Prod.mk.injEq] at hnp
              obtain ⟨en, ep⟩ := hnp
              subst en; subst ep
              refine ⟨hmem, rfl, by simp, fun q hq => Or.inl (by simp [hq]),
                stackFlat restStack, by simp [stackFlat], by simp [hgc]⟩
            | cons c cs1 =>
              simp only [next_child_aux, hmem, if_false, hgc,
                Option.some_inj, Prod.mk.injEq] at h
              obtain ⟨h1, h2, h3, h4, h5⟩ := h
              subst h1; subst h2; subst h3; subst h4; subst h5
              refine ⟨by simp, by simp, ?_⟩
              intro n p hnp
              rw [Option.some_inj, Prod.mk.injEq] at hnp
              obtain ⟨en, ep⟩ := hnp
              subst en; subst ep
              refine ⟨hmem, rfl, by simp, ?_, stackFlat restStack,
                by simp [stackFlat], by simp [stackFlat, hgc]⟩
              intro q hq
              rcases List.mem_cons.mp hq with h | h
              · exact Or.inr h
              · exact Or.inl (List.mem_cons_of_mem _ h)
          | cons t ts =>
            cases hgc : gc node with
            | nil =>
              simp only [next_child_aux, hmem, if_false, hgc,
                Option.some_inj, Prod.mk.injEq] at h
              obtain ⟨h1, h2, h3, h4, h5⟩ := h
              subst h1; subst h2; subst h3; subst h4; subst h5
              refine ⟨by simp, by simp, ?_⟩
              intro n p hnp
              rw [Option.some_inj, Prod.mk.injEq] at hnp
              obtain ⟨en, ep⟩ := hnp
              subst en; subst ep
              refine ⟨hmem, rfl, by simp, fun q hq => Or.inl hq,
                stackFlat ((t :: ts) :: restStack), by simp [stackFlat],
                by simp [hgc]⟩
            | cons c cs1 =>
              simp only [next_child_aux, hmem, if_false, hgc,
                Option.some_inj, Prod.mk.injEq] at h
              obtain ⟨h1, h2, h3, h4, h5⟩ := h
              subst h1; subst h2; subst h3; subst h4; subst h5
              refine ⟨by simp, by simp, ?_⟩
              intro n p hnp
              rw [Option.some_inj, Prod.mk.injEq] at hnp
              obtain ⟨en, ep⟩ := hnp
              subst en; subst ep
              refine ⟨hmem, rfl, by simp, ?_,
                stackFlat ((t :: ts) :: restStack), by simp [stackFlat],
                by simp [stackFlat, hgc]⟩
              intro q hq
              rcases List.mem_cons.mp hq with h | h
              · exact Or.inr h
              · exact Or.inl h

theorem TreeWalker.next_child_spec {Node : Type} [DecidableEq Node]
    (w : TreeWalker Node) (hg : GoodS w.node_stack w.parent_stack) :
    ∃ res cs w', w.next_child = some (res, cs, w') ∧
      GoodS w'.node_stack w'.parent_stack ∧
      w'.root_node = w.root_node ∧ w'.get_children = w.get_children ∧
      (∀ c ∈ cs, c.1 ∈ w.history) ∧
      (res = none → w'.history = w.history ∧ w'.node_stack = [] ∧
        stackFlat w.node_stack = cs.map Prod.fst ∧
        ∀ q ∈ w'.parent_stack, q ∈ w.parent_stack) ∧
      (∀ n p, res = some (n, p) → n ∉ w.history ∧
        w'.history = w.history ++ [n] ∧ p ∈ w.parent_stack ∧
        (∀ q ∈ w'.parent_stack, q ∈ w.parent_stack ∨ q = n) ∧
        ∃ rest, stackFlat w.node_stack = cs.map Prod.fst ++ n :: rest ∧
          stackFlat w'.node_stack = w.get_children n ++ rest) := by
  obtain ⟨res, cs, ns', ps', hist', heq, hg'⟩ :=
    next_child_aux_total w.get_children (totalNodes w.node_stack) w.node_stack
      w.parent_stack w.history (le_refl _) hg
  obtain ⟨s1, s2, s3⟩ :=
    next_child_aux_spec w.get_children (totalNodes w.node_stack) w.node_stack
      w.parent_stack w.history res cs ns' ps' hist' (le_refl _) heq
  refine ⟨res, cs,
    { w with node_stack := ns', parent_stack := ps', history := hist' },
    ?_, hg', rfl, rfl, fun c hc => (s1 c hc).1, ?_, ?_⟩
  · simp only [TreeWalker.next_child, heq]
  · intro hres
    obtain ⟨a1, a2, a3, a4⟩ := s2 hres
    exact ⟨a1, a2, a3, a4⟩
  · intro n p hres
    obtain ⟨a1, a2, a3, a4, rest, a5, a6⟩ := s3 n p hres
    exact ⟨a1, a2, a3, a4, rest, a5, a6⟩

/-- Main bookkeeping facts about a bounded sequence of `next_child` calls:
the run never raises, preserves well-formedness and the constructor fields,
appends exactly the yielded nodes to the history (keeping it duplicate-free),
invokes `cycle_func` only on already-visited nodes, satisfies the multiset
balance `cycles + yields + pending-after = pending-before + children of the
yields`, and yields one node per unit of fuel unless the frontier drains. -/
theorem run_walk_spec {Node : Type} [DecidableEq Node] :
    ∀ (fuel : Nat) (w : TreeWalker Node),
      GoodS w.node_stack w.parent_stack →
      ∃ ys cs w', run_walk fuel w = some (ys, cs, w') ∧
        GoodS w'.node_stack w'.parent_stack ∧
        w'.root_node = w.root_node ∧ w'.get_children = w.get_children ∧
        w'.history = w.history ++ ys.map Prod.fst ∧
        (w.history.Nodup → w'.history.Nodup) ∧
        (∀ c ∈ cs, c.1 ∈ w'.history) ∧
        ((cs.map Prod.fst : Multiset Node) + (ys.map Prod.fst : Multiset Node)
            + (stackFlat w'.node_stack : Multiset Node)
          = (stackFlat w.node_stack : Multiset Node)
            + (ys.map fun yp => ((w.get_children yp.1 : List Node) :
                Multiset Node)).sum) ∧
        (w'.node_stack ≠ [] → ys.length = fuel) := by
  intro fuel
  induction fuel with
  | zero =>
    intro w hg
    refine ⟨[], [], w, rfl, hg, rfl, rfl, by simp, fun h => h, by simp,
      by simp, ?_⟩
    intro _; rfl
  | succ fuel ih =>
    intro w hg
    obtain ⟨res, cs0, w1, hstep, hg1, hroot1, hgc1, hcyc1, hnone, hsome⟩ :=
      w.next_child_spec hg
    match res, hstep with
    | none, hstep =>
      obtain ⟨b1, b2, b3, b4⟩ := hnone rfl
      refine ⟨[], cs0, w1, ?_, hg1, hroot1, hgc1, by simp [b1],
        fun h => b1 ▸ h, ?_, ?_, ?_⟩
      · simp only [run_walk, hstep]
      · intro c hc; rw [b1]; exact hcyc1 c hc
      · simp [b2, b3, stackFlat]
      · intro h; exact absurd b2 h
    | some (n, p), hstep =>
      obtain ⟨b1, b2, b3, b4, rest, b5, b6⟩ := hsome n p rfl
      obtain ⟨ys1, cs1, w', hrun1, hg', hroot', hgc', hhist', hnd', hcyc',
        hms', hlen'⟩ := ih w1 hg1
      refine ⟨(n, p) :: ys1, cs0 ++ cs1, w', ?_, hg',
        hroot'.trans hroot1, hgc'.trans hgc1, ?_, ?_, ?_, ?_, ?_⟩
      · simp only [run_walk, hstep, hrun1]
      · rw [hhist', b2]; simp
      · intro hnd
        apply hnd'
        rw [b2]
        refine hnd.append (List.nodup_singleton n) ?_
        intro a ha hb
        simp only [List.mem_singleton] at hb
        subst hb
        exact b1 ha
      · intro c hc
        rcases List.mem_append.mp hc with h | h
        · rw [hhist', b2]
          exact List.mem_append_left _ (List.mem_append_left _ (hcyc1 c h))
        · exact hcyc' c h
      · rw [hgc1] at hms'
        have e5 : (stackFlat w.node_stack : Multiset Node)
            = (cs0.map Prod.fst : Multiset Node) + (n ::ₘ (rest : Multiset Node)) := by
          rw [b5]; simp [Multiset.cons_coe]
        have e6 : (stackFlat w1.node_stack : Multiset Node)
            = ((w.get_children n : List Node) : Multiset Node)
              + (rest : Multiset Node) := by
          rw [b6]; simp
        rw [e6] at hms'
        simp only [List.map_cons, List.map_append, Multiset.sum_cons]
        rw [e5]
        have : ((cs0.map Prod.fst ++ cs1.map Prod.fst : List Node) :
            Multiset Node) = (cs0.map Prod.fst : Multiset Node)
            + (cs1.map Prod.fst : Multiset Node) := by simp
        rw [this]
        have hcons : ((n :: ys1.map Prod.fst : List Node) : Multiset Node)
            = n ::ₘ (ys1.map Prod.fst : Multiset Node) := by
          simp [Multiset.cons_coe]
        rw [hcons]
        calc (cs0.map Prod.fst : Multiset Node)
              + (cs1.map Prod.fst : Multiset Node)
              + (n ::ₘ (ys1.map Prod.fst : Multiset Node))
              + (stackFlat w'.node_stack : Multiset Node)
            = (cs0.map Prod.fst : Multiset Node) + (n ::ₘ 0)
              + ((cs1.map Prod.fst : Multiset Node)
                + (ys1.map Prod.fst : Multiset Node)
                + (stackFlat w'.node_stack : Multiset Node)) := by
              simp only [← Multiset.singleton_add, add_zero]
              abel
          _ = (cs0.map Prod.fst : Multiset Node) + (n ::ₘ 0)
              + (((w.get_children n : List Node) : Multiset Node)
                + (rest : Multiset Node)
                + (ys1.map fun yp => ((w.get_children yp.1 : List Node) :
                    Multiset Node)).sum) := by rw [hms']
          _ = (cs0.map Prod.fst : Multiset Node) + (n ::ₘ (rest : Multiset Node))
              + (((w.get_children n : List Node) : Multiset Node)
                + (ys1.map fun yp => ((w.get_children yp.1 : List Node) :
                    Multiset Node)).sum) := by
              simp only [← Multiset.singleton_add, add_zero]
              abel
      · intro hne
        simp only [List.length_cons]
        rw [hlen' hne]

theorem run_walk_parents {Node : Type} [DecidableEq Node] :
    ∀ (fuel : Nat) (w : TreeWalker Node) (ys cs : List (Node × Node))
      (w' : TreeWalker Node),
      GoodS w.node_stack w.parent_stack →
      (∀ q ∈ w.parent_stack, q ∈ w.history ∨ some q = w.root_node) →
      run_walk fuel w = some (ys, cs, w') →
      parentOk w.root_node w.history ys := by
  intro fuel
  induction fuel with
  | zero =>
    intro w ys cs w' hg hinv hrun
    simp only [run_walk, Option.some_inj, Prod.mk.injEq] at hrun
    obtain ⟨h1, h2, h3⟩ := hrun
    subst h1
    trivial
  | succ fuel ih =>
    intro w ys cs w' hg hinv hrun
    obtain ⟨res, cs0, w1, hstep, hg1, hroot1, hgc1, hcyc1, hnone, hsome⟩ :=
      w.next_child_spec hg
    match res, hstep with
    | none, hstep =>
      simp only [run_walk, hstep, Option.some_inj, Prod.mk.injEq] at hrun
      obtain ⟨h1, h2, h3⟩ := hrun
      subst h1
      trivial
    | some (n, p), hstep =>
      obtain ⟨b1, b2, b3, b4, rest, b5, b6⟩ := hsome n p rfl
      rcases hrun1 : run_walk fuel w1 with _ | ⟨ys1, cs1, w2⟩ <;>
        simp only [run_walk, hstep, hrun1, Option.some_inj,
          Prod.mk.injEq] at hrun
      · exact absurd hrun (by simp)
      · obtain ⟨h1, h2, h3⟩ := hrun
        subst h1
        refine ⟨hinv p b3, ?_⟩
        have := ih w1 ys1 cs1 w2 hg1 ?_ hrun1
        · rw [hroot1, b2] at this
          exact this
        · intro q hq
          rcases b4 q hq with h | h
          · rcases hinv q h with h' | h'
            · rw [b2]; exact Or.inl (List.mem_append_left _ h')
            · rw [hroot1]; exact Or.inr h'
          · subst h
            rw [b2]
            exact Or.inl (List.mem_append_right _ (by simp))

theorem run_walk_closed {Node : Type} [DecidableEq Node] :
    ∀ (fuel : Nat) (w : TreeWalker Node) (ys cs : List (Node × Node))
      (w' : TreeWalker Node) (P : Node → Prop),
      GoodS w.node_stack w.parent_stack →
      (∀ v ∈ stackFlat w.node_stack, P v) →
      (∀ u v, P u → v ∈ w.get_children u → P v) →
      run_walk fuel w = some (ys, cs, w') →
      ∀ yp ∈ ys, P yp.1 := by
  intro fuel
  induction fuel with
  | zero =>
    intro w ys cs w' P hg hstack hclosed hrun
    simp only [run_walk, Option.some_inj, Prod.mk.injEq] at hrun
    obtain ⟨h1, h2, h3⟩ := hrun
    subst h1
    simp
  | succ fuel ih =>
    intro w ys cs w' P hg hstack hclosed hrun
    obtain ⟨res, cs0, w1, hstep, hg1, hroot1, hgc1, hcyc1, hnone, hsome⟩ :=
      w.next_child_spec hg
    match res, hstep with
    | none, hstep =>
      simp only [run_walk, hstep, Option.some_inj, Prod.mk.injEq] at hrun
      obtain ⟨h1, h2, h3⟩ := hrun
      subst h1
      simp
    | some (n, p), hstep =>
      obtain ⟨b1, b2, b3, b4, rest, b5, b6⟩ := hsome n p rfl
      rcases hrun1 : run_walk fuel w1 with _ | ⟨ys1, cs1, w2⟩ <;>
        simp only [run_walk, hstep, hrun1, Option.some_inj,
          Prod.mk.injEq] at hrun
      · exact absurd hrun (by simp)
      · obtain ⟨h1, h2, h3⟩ := hrun
        subst h1
        have hn : P n := hstack n (by rw [b5]; simp)
        intro yp hyp
        rcases List.mem_cons.mp hyp with h | h
        · subst h; exact hn
        · refine ih w1 ys1 cs1 w2 P hg1 ?_ ?_ hrun1 yp h
          · intro v hv
            rw [b6] at hv
            rcases List.mem_append.mp hv with h' | h'
            · exact hclosed n v hn h'
            · exact hstack v (by rw [b5]; simp [h'])
          · intro u v hu hv
            rw [hgc1] at hv
            exact hclosed u v hu hv

theorem parentOk_get {Node : Type} (root : Option Node) :
    ∀ (ys : List (Node × Node)) (hist : List Node),
      parentOk root hist ys →
      ∀ (i : Nat) (hi : i < ys.length),
        (ys.get ⟨i, hi⟩).2 ∈ hist ++ (ys.take i).map Prod.fst ∨
          some (ys.get ⟨i, hi⟩).2 = root := by
  intro ys
  induction ys with
  | nil => intro hist _ i hi; exact absurd hi (by simp)
  | cons yp ys1 ih =>
    intro hist hok i hi
    match yp, hok with
    | (n, p), ⟨hk1, hk2⟩ =>
      match i with
      | 0 => simpa using hk1
      | i + 1 =>
        have hi1 : i < ys1.length := by simpa using hi
        rcases ih (hist ++ [n]) hk2 i hi1 with h | h
        · left
          simp only [List.get_eq_getElem, List.getElem_cons_succ,
            List.take_succ_cons, List.map_cons]
          simp only [List.get_eq_getElem, List.append_assoc,
            List.singleton_append] at h
          exact h
        · right
          simpa using h

theorem mkTreeWalker_spec {Node : Type} (root : Option Node)
    (gc : Node → List Node) :
    GoodS (mkTreeWalker root gc).node_stack
      (mkTreeWalker root gc).parent_stack ∧
    (mkTreeWalker root gc).root_node = root ∧
    (mkTreeWalker root gc).get_children = gc ∧
    (mkTreeWalker root gc).history = ([] : List Node) ∧
    stackFlat (mkTreeWalker root gc).node_stack
      = (match root with | some r => gc r | none => []) ∧
    ∀ q ∈ (mkTreeWalker root gc).parent_stack, some q = root := by
  cases root with
  | none => simp [mkTreeWalker, TreeWalker.reset, GoodS, stackFlat]
  | some r =>
    cases hgc : gc r with
    | nil => simp [mkTreeWalker, TreeWalker.reset, hgc, GoodS, stackFlat]
    | cons c cs =>
      simp [mkTreeWalker, TreeWalker.reset, hgc, GoodS, stackFlat]

/-- Two walkers with the same constructor arguments reset to the same state:
`reset` reads only `root_node` and `get_children` and overwrites the three
mutable fields. -/
theorem TreeWalker.reset_congr {Node : Type} (w w' : TreeWalker Node)
    (h1 : w.root_node = w'.root_node) (h2 : w.get_children = w'.get_children) :
    w.reset = w'.reset := by
  cases w with
  | mk r g ns ps hi =>
    cases w' with
    | mk r' g' ns' ps' hi' =>
      simp only at h1 h2
      subst h1; subst h2
      rfl

theorem mem_map_sum {Node : Type} (v : Node) :
    ∀ (ys : List (Node × Node)) (f : Node × Node → Multiset Node)
      (yp : Node × Node), yp ∈ ys → v ∈ f yp → v ∈ (ys.map f).sum := by
  intro ys
  induction ys with
  | nil => intro f yp h; exact absurd h (by simp)
  | cons a as ih =>
    intro f yp h hv
    rcases List.mem_cons.mp h with h | h
    · subst h
      simp only [List.map_cons, List.sum_cons, Multiset.mem_add]
      exact Or.inl hv
    · simp only [List.map_cons, List.sum_cons, Multiset.mem_add]
      exact Or.inr (ih f yp h hv)

theorem count_map_sum {Node : Type} [DecidableEq Node] (v : Node) :
    ∀ (ys : List (Node × Node)) (f : Node × Node → Multiset Node),
      Multiset.count v ((ys.map f).sum)
        = (ys.map fun yp => Multiset.count v (f yp)).sum := by
  intro ys
  induction ys with
  | nil => intro f; simp
  | cons a as ih =>
    intro f
    simp [Multiset.count_add, ih]

/-- With `Fintype.card Node + 1` units of fuel, a run from a freshly
constructed walker always drains the frontier: each unit of fuel yields a
fresh node, and there are only `card Node` distinct nodes. -/
theorem run_mk_complete {Node : Type} [DecidableEq Node] [Fintype Node]
    (root : Option Node) (gc : Node → List Node)
    (ys cs : List (Node × Node)) (w' : TreeWalker Node)
    (hrun : run_walk (Fintype.card Node + 1) (mkTreeWalker root gc)
      = some (ys, cs, w')) :
    w'.node_stack = [] := by
  obtain ⟨hg, hroot, hgc, hhist, hflat, hps⟩ := mkTreeWalker_spec root gc
  obtain ⟨ys0, cs0, w0, hrun0, hg0, hroot0, hgc0, hhist0, hnd0, hcyc0, hms0,
    hlen0⟩ := run_walk_spec (Fintype.card Node + 1) (mkTreeWalker root gc) hg
  rw [hrun0] at hrun
  simp only [Option.some_inj, Prod.mk.injEq] at hrun
  obtain ⟨e1, e2, e3⟩ := hrun
  subst e1; subst e2; subst e3
  by_contra hne
  have hlen : ys0.length = Fintype.card Node + 1 := hlen0 hne
  have hnd : (ys0.map Prod.fst).Nodup := by
    have := hnd0 (by rw [hhist]; exact List.nodup_nil)
    rw [hhist0, hhist] at this
    simpa using this
  have hle : (ys0.map Prod.fst).length ≤ Fintype.card Node :=
    hnd.length_le_card
  simp only [List.length_map, hlen] at hle
  omega

/-- Claim C3: on any finite graph the walker reaches `(None, None)` within
`card Node + 1` calls of `next_child` (the frontier is drained), and on the
one-node self-loop graph (the children of `A` are `[A]`) the run yields `A`
exactly once and invokes `cycle_func` on `(A, A)` exactly once before
terminating. -/
theorem walker_terminates_on_finite_graphs :
    (∀ (Node : Type) [DecidableEq Node] [Fintype Node] (root : Option Node)
      (gc : Node → List Node), ∃ ys cs hist,
      walk_output (Fintype.card Node + 1) (mkTreeWalker root gc)
        = some (ys, cs, [], hist)) ∧
    walk_output 2 (mkTreeWalker (some (0 : Fin 1)) (fun _ => [0]))
      = some ([(0, 0)], [(0, 0)], [], [0]) := by
  constructor
  · intro Node _ _ root gc
    obtain ⟨hg, hroot, hgc, hhist, hflat, hps⟩ := mkTreeWalker_spec root gc
    obtain ⟨ys0, cs0, w0, hrun0, hg0, hroot0, hgc0, hhist0, hnd0, hcyc0, hms0,
      hlen0⟩ := run_walk_spec (Fintype.card Node + 1) (mkTreeWalker root gc) hg
    have hempty : w0.node_stack = [] := run_mk_complete root gc ys0 cs0 w0 hrun0
    refine ⟨ys0, cs0, w0.history, ?_⟩
    simp only [walk_output, hrun0, hempty]
  · simp [walk_output, run_walk, TreeWalker.next_child, next_child_aux,
      mkTreeWalker, TreeWalker.reset]

/-- Claim C2: in any (even partial) run of a constructed walker, the parent
component of each yielded pair is the root or a node yielded strictly
earlier. -/
theorem walker_parent_before_child :
    ∀ (Node : Type) [DecidableEq Node] (root : Node) (gc : Node → List Node)
      (fuel : Nat) (ys cs : List (Node × Node))
      (fin : List (List Node)) (hist : List Node),
      walk_output fuel (mkTreeWalker (some root) gc)
        = some (ys, cs, fin, hist) →
      ∀ (i : Nat) (hi : i < ys.length),
        (ys.get ⟨i, hi⟩).2 = root ∨
          (ys.get ⟨i, hi⟩).2 ∈ (ys.take i).map Prod.fst := by
  intro Node _ root gc fuel ys cs fin hist hout i hi
  obtain ⟨hg, hroot, hgc, hhist, hflat, hps⟩ := mkTreeWalker_spec (some root) gc
  rcases hrun : run_walk fuel (mkTreeWalker (some root) gc) with
    _ | ⟨ys0, cs0, w0⟩ <;>
    simp only [walk_output, hrun, Option.some_inj, Prod.mk.injEq] at hout
  · exact absurd hout (by simp)
  · obtain ⟨e1, e2, e3, e4⟩ := hout
    subst e1
    have hpok0 := run_walk_parents fuel (mkTreeWalker (some root) gc) ys0 cs0
      w0 hg (fun q hq => Or.inr (by rw [hroot]; exact hps q hq)) hrun
    rw [hroot, hhist] at hpok0
    rcases parentOk_get (some root) ys0 [] hpok0 i hi with h | h
    · right; simpa using h
    · left; exact Option.some_inj.mp h

/-- Claim C1: a complete run of the walker from a constructed `TreeWalker`
yields each node reachable from the root (through at least one edge) exactly
once — no node appears twice among the yields — and, counting multiplicity,
the number of `cycle_func` invocations on a node `v` equals the number of
times `v` occurs as a child of the root or of a yielded node, minus one when
`v` is itself yielded (so a node reachable `k` ways is reported `k - 1`
times). -/
theorem walker_visits_each_reachable_once :
    ∀ (Node : Type) [DecidableEq Node] [Fintype Node] (root : Node)
      (gc : Node → List Node) (ys cs : List (Node × Node))
      (fin : List (List Node)) (hist : List Node),
      walk_output (Fintype.card Node + 1) (mkTreeWalker (some root) gc)
        = some (ys, cs, fin, hist) →
      (ys.map Prod.fst).Nodup ∧
      (∀ v, v ∈ ys.map Prod.fst ↔ ReachesFrom gc root v) ∧
      (∀ v, (cs.map Prod.fst).count v
          + (if v ∈ ys.map Prod.fst then 1 else 0)
        = (gc root).count v + (ys.map fun yp => (gc yp.1).count v).sum) := by
  intro Node _ _ root gc ys cs fin hist hout
  obtain ⟨hg, hroot, hgc, hhist, hflat, hps⟩ := mkTreeWalker_spec (some root) gc
  obtain ⟨ys0, cs0, w0, hrun0, hg0, hroot0, hgc0, hhist0, hnd0, hcyc0, hms0,
    hlen0⟩ := run_walk_spec (Fintype.card Node + 1)
      (mkTreeWalker (some root) gc) hg
  have hempty : w0.node_stack = [] :=
    run_mk_complete (some root) gc ys0 cs0 w0 hrun0
  simp only [walk_output, hrun0, Option.some_inj, Prod.mk.injEq] at hout
  obtain ⟨e1, e2, e3, e4⟩ := hout
  subst e1; subst e2
  have hYhist : w0.history = ys0.map Prod.fst := by
    rw [hhist0, hhist]; simp
  have hndY : (ys0.map Prod.fst).Nodup := by
    have := hnd0 (by rw [hhist]; exact List.nodup_nil)
    rwa [hYhist] at this
  have hms : ((cs0.map Prod.fst : List Node) : Multiset Node)
      + ((ys0.map Prod.fst : List Node) : Multiset Node)
      = ((gc root : List Node) : Multiset Node)
      + (ys0.map fun yp => ((gc yp.1 : List Node) : Multiset Node)).sum := by
    have h0 := hms0
    rw [hempty, hflat] at h0
    simp only [hgc, stackFlat, Multiset.coe_nil, add_zero] at h0
    exact h0
  have hcycY : ∀ c ∈ cs0, c.1 ∈ ys0.map Prod.fst := by
    intro c hc
    have := hcyc0 c hc
    rwa [hYhist] at this
  have hfromLHS : ∀ v, v ∈ ((cs0.map Prod.fst : List Node) : Multiset Node)
      + ((ys0.map Prod.fst : List Node) : Multiset Node) →
      v ∈ ys0.map Prod.fst := by
    intro v hv
    rcases Multiset.mem_add.mp hv with h | h
    · have h' : ∃ x, (v, x) ∈ cs0 := by simpa using h
      rcases h' with ⟨x, hx⟩
      exact hcycY (v, x) hx
    · simpa using h
  have hfwd : ∀ yp ∈ ys0, ReachesFrom gc root yp.1 := by
    refine run_walk_closed _ _ ys0 cs0 w0 (ReachesFrom gc root) hg ?_ ?_ hrun0
    · intro v hv
      rw [hflat] at hv
      exact ReachesFrom.base (by simpa using hv)
    · intro u v hu hv
      rw [hgc] at hv
      exact ReachesFrom.step hu hv
  have hbwd : ∀ v, ReachesFrom gc root v → v ∈ ys0.map Prod.fst := by
    intro v hv
    induction hv with
    | base hv' =>
      refine hfromLHS _ ?_
      rw [hms]
      exact Multiset.mem_add.mpr (Or.inl (by simpa using hv'))
    | step hu hv' ihu =>
      rcases List.mem_map.mp ihu with ⟨yp, hyp, hypeq⟩
      refine hfromLHS _ ?_
      rw [hms]
      refine Multiset.mem_add.mpr (Or.inr ?_)
      exact mem_map_sum _ ys0 _ yp hyp (by rw [hypeq]; simpa using hv')
  refine ⟨hndY, ?_, ?_⟩
  · intro v
    constructor
    · intro hvm
      rcases List.mem_map.mp hvm with ⟨yp, hyp, hypeq⟩
      rw [← hypeq]
      exact hfwd yp hyp
    · exact hbwd v
  · intro v
    have hcnt := congrArg (Multiset.count v) hms
    simp only [Multiset.count_add, Multiset.coe_count] at hcnt
    rw [count_map_sum] at hcnt
    simp only [Multiset.coe_count] at hcnt
    have hYcount : (ys0.map Prod.fst).count v
        = if v ∈ ys0.map Prod.fst then 1 else 0 := by
      by_cases hvm : v ∈ ys0.map Prod.fst
      · simp [hvm, List.count_eq_one_of_mem hndY hvm]
      · simp [hvm, List.count_eq_zero_of_not_mem hvm]
    rw [hYcount] at hcnt
    exact hcnt

/-- Claim C9: running the walker to any depth from a constructed state and
then calling `reset` restores exactly the just-constructed state, so a second
run after `reset` (with any fuel) returns the same output as a run from
construction. -/
theorem walker_reset_restores :
    ∀ (Node : Type) [DecidableEq Node] (root : Option Node)
      (gc : Node → List Node) (fuel fuel2 : Nat),
      (run_walk fuel (mkTreeWalker root gc)).map
          (fun out => (out.2.2.reset, run_walk fuel2 out.2.2.reset))
        = (run_walk fuel (mkTreeWalker root gc)).map
          (fun _ => (mkTreeWalker root gc,
            run_walk fuel2 (mkTreeWalker root gc))) := by
  intro Node _ root gc fuel fuel2
  obtain ⟨hg, hroot, hgc, hhist, hflat, hps⟩ := mkTreeWalker_spec root gc
  obtain ⟨ys0, cs0, w0, hrun0, hg0, hroot0, hgc0, hhist0, hnd0, hcyc0, hms0,
    hlen0⟩ := run_walk_spec fuel (mkTreeWalker root gc) hg
  rw [hrun0]
  simp only [Option.map_some']
  have hidem : (mkTreeWalker root gc).reset = mkTreeWalker root gc :=
    TreeWalker.reset_congr (mkTreeWalker root gc)
      { root_node := root, get_children := gc, node_stack := [],
        parent_stack := [], history := [] } (by rw [hroot]) (by rw [hgc])
  have hreset : w0.reset = mkTreeWalker root gc := by
    have h1 : w0.reset = (mkTreeWalker root gc).reset :=
      TreeWalker.reset_congr w0 (mkTreeWalker root gc)
        (by rw [hroot0]) (by rw [hgc0])
    rw [h1, hidem]
  rw [hreset]

theorem walker_visits_each_reachable_once_witness :
    walk_output (Fintype.card (Fin 4) + 1)
      (mkTreeWalker (some 0) diamondChildren)
      = some ([(1, 0), (3, 1), (2, 0)], [(3, 2)], [], [1, 3, 2]) ∧
    ((([(1, 0), (3, 1), (2, 0)] : List (Fin 4 × Fin 4)).map Prod.fst).Nodup ∧
      (∀ v, v ∈ ([(1, 0), (3, 1), (2, 0)] :
          List (Fin 4 × Fin 4)).map Prod.fst ↔
        ReachesFrom diamondChildren 0 v) ∧
      (∀ v, (([(3, 2)] : List (Fin 4 × Fin 4)).map Prod.fst).count v
          + (if v ∈ ([(1, 0), (3, 1), (2, 0)] :
              List (Fin 4 × Fin 4)).map Prod.fst then 1 else 0)
        = (diamondChildren 0).count v
          + (([(1, 0), (3, 1), (2, 0)] : List (Fin 4 × Fin 4)).map
              fun yp => (diamondChildren yp.1).count v).sum)) := by
  have h : walk_output (Fintype.card (Fin 4) + 1)
      (mkTreeWalker (some 0) diamondChildren)
      = some ([(1, 0), (3, 1), (2, 0)], [(3, 2)], [], [1, 3, 2]) := by
    simp [walk_output, run_walk, TreeWalker.next_child, next_child_aux,
      mkTreeWalker, TreeWalker.reset, diamondChildren]
  exact ⟨h, walker_visits_each_reachable_once (Fin 4) 0 diamondChildren
    [(1, 0), (3, 1), (2, 0)] [(3, 2)] [] [1, 3, 2] h⟩

theorem walker_parent_before_child_witness :
    walk_output 5 (mkTreeWalker (some (0 : Fin 4)) diamondChildren)
      = some ([(1, 0), (3, 1), (2, 0)], [(3, 2)], [], [1, 3, 2]) ∧
    ((1 : Fin 4) = 0 ∨
      (1 : Fin 4) ∈ (([(1, 0), (3, 1), (2, 0)] :
        List (Fin 4 × Fin 4)).take 1).map Prod.fst) := by
  have h : walk_output 5 (mkTreeWalker (some (0 : Fin 4)) diamondChildren)
      = some ([(1, 0), (3, 1), (2, 0)], [(3, 2)], [], [1, 3, 2]) := by
    simp [walk_output, run_walk, TreeWalker.next_child, next_child_aux,
      mkTreeWalker, TreeWalker.reset, diamondChildren]
  exact ⟨h, walker_parent_before_child (Fin 4) 0 diamondChildren 5
    [(1, 0), (3, 1), (2, 0)] [(3, 2)] [] [1, 3, 2] h 1 (by decide)⟩

/-- Claim C8: one full lazy iteration of a deferred generated_list equals
iteration after forcing materialization; a second `Expand` leaves the state
unchanged, and its producer-invoking guard `if self.gen_fn` is false after
the first `Expand`, so the producer cannot be invoked again. -/
theorem lazy_materialized_iteration_agree :
    ∀ (α : Type) (prod : List α) (gl : generated_list α),
      (mkGeneratedList prod).iter = prod ∧
      ((mkGeneratedList prod).Expand).iter = prod ∧
      (gl.Expand).Expand = gl.Expand ∧
      ((mkGeneratedList prod).Expand).Expand_invokes_producer = false := by
  intro α prod gl
  refine ⟨rfl, rfl, ?_, rfl⟩
  cases hg : gl.gen <;>
    simp [generated_list.Expand, hg]

theorem index_scan_not_mem {α : Type} [DecidableEq α] (v : α) :
    ∀ (l : List α) (idx : Nat), v ∉ l →
      index_scan v 0 none l idx = (-1, l.length) := by
  intro l
  induction l with
  | nil => intro idx h; rfl
  | cons x xs ih =>
    intro idx h
    have hvx : ¬ v = x := fun he => h (by rw [he]; exact List.mem_cons_self x xs)
    have hxs : v ∉ xs := fun hm => h (List.mem_cons_of_mem _ hm)
    have hnn : ¬ ((idx : Int) < 0) := by omega
    simp [index_scan, hnn, hvx, ih (idx + 1) hxs]

/-- Claim C10: on a deferred generated_list, `index` with default bounds
returns `-1` for an absent value instead of raising (unlike the built-in
`list.index`), and membership of such a value is consequently `False`. -/
theorem index_absent_no_raise :
    ∀ (α : Type) [DecidableEq α] (prod : List α) (v : α),
      v ∉ prod →
      ((mkGeneratedList prod).index v none none).1 = Except.ok (-1) ∧
      truthy ((mkGeneratedList prod).contains v).1 = false := by
  intro α _ prod v hv
  constructor
  · simp [generated_list.index, index_bounds_ok, mkGeneratedList,
      index_scan_not_mem v prod 0 hv]
  · simp [generated_list.contains, mkGeneratedList, truthy,
      index_scan_not_mem v prod 0 hv]

theorem index_absent_no_raise_witness :
    (7 : Int) ∉ ([1, 2, 3] : List Int) ∧
    (((mkGeneratedList ([1, 2, 3] : List Int)).index 7 none none).1
        = Except.ok (-1) ∧
      truthy ((mkGeneratedList ([1, 2, 3] : List Int)).contains 7).1
        = false) :=
  ⟨by decide, index_absent_no_raise Int [1, 2, 3] 7 (by decide)⟩

/-- Counterexample to claim C4 as stated: an integer subscript read on a
deferred generated_list does not leave it deferred and does not consume only
a bounded producer output — it returns the element but materializes the
object (producer discarded, backing store fully populated). -/
theorem integer_read_materializes_counterexample :
    (mkGeneratedList ([10, 20, 30] : List Int)).getitem_int 1
      = (Except.ok 20,
        { gen := none, store := [10, 20, 30], nonzero := none }) := rfl

theorem index_scan_found {α : Type} [DecidableEq α] (v : α) :
    ∀ (pre post : List α) (idx : Nat), v ∉ pre →
      index_scan v 0 none (pre ++ v :: post) idx
        = (((idx : Int) + pre.length), pre.length + 1) := by
  intro pre
  induction pre with
  | nil =>
    intro post idx h
    have hnn : ¬ ((idx : Int) < 0) := by omega
    simp [index_scan, hnn]
  | cons x xs ih =>
    intro post idx h
    have hvx : ¬ v = x := fun he => h (by rw [he]; exact List.mem_cons_self x xs)
    have hxs : v ∉ xs := fun hm => h (List.mem_cons_of_mem _ hm)
    have hnn : ¬ ((idx : Int) < 0) := by omega
    have ih' := ih post (idx + 1) hxs
    simp [index_scan, hnn, hvx, ih']
    push_cast
    ring

/-- Claim C4 amended: membership, `len`, `count` and value-lookup `index`
with default bounds leave a deferred generated_list deferred (its state is
unchanged) and membership consumes the producer only up to the first
occurrence of the value; an integer subscript read instead behaves exactly
like `Expand` on the state (full materialization, whole producer consumed)
and then returns the stored element at the position. -/
theorem lazy_reads_amended :
    ∀ (α : Type) [DecidableEq α] (prod pre post : List α) (v : α) (i : Int),
      ((mkGeneratedList prod).contains v).2.2 = mkGeneratedList prod ∧
      ((mkGeneratedList prod).len).2 = mkGeneratedList prod ∧
      ((mkGeneratedList prod).count v).2 = mkGeneratedList prod ∧
      ((mkGeneratedList prod).index v none none).2.2 = mkGeneratedList prod ∧
      (v ∉ pre → (mkGeneratedList (pre ++ v :: post)).contains v
        = (some true, pre.length + 1, mkGeneratedList (pre ++ v :: post))) ∧
      ((mkGeneratedList prod).getitem_int i).2
        = (mkGeneratedList prod).Expand ∧
      (∀ (j : Nat) (hj : j < prod.length),
        ((mkGeneratedList prod).getitem_int (j : Int)).1
          = Except.ok (prod.get ⟨j, hj⟩)) := by
  intro α _ prod pre post v i
  refine ⟨rfl, rfl, rfl, rfl, ?_, rfl, ?_⟩
  · intro hv
    simp only [generated_list.contains, mkGeneratedList,
      index_scan_found v pre post 0 hv]
    simp
  · intro j hj
    have hcond : 0 ≤ (j : Int) ∧ (j : Int) < prod.length := by
      constructor
      · exact Int.natCast_nonneg j
      · exact_mod_cast hj
    simp only [generated_list.getitem_int, generated_list.Expand,
      mkGeneratedList, List.nil_append]
    rw [pyListGet, dif_pos hcond]
    simp

theorem lazy_reads_amended_witness :
    (20 : Int) ∉ ([10] : List Int) ∧
    (2 : Nat) < ([10, 20, 30] : List Int).length ∧
    (mkGeneratedList ([10] ++ (20 : Int) :: [30])).contains 20
      = (some true, 2, mkGeneratedList ([10] ++ (20 : Int) :: [30])) ∧
    ((mkGeneratedList ([10, 20, 30] : List Int)).getitem_int
      ((2 : Nat) : Int)).1 = Except.ok 30 := by
  have h := lazy_reads_amended Int [10, 20, 30] [10] [30] 20 1
  exact ⟨by decide, by decide, h.2.2.2.2.1 (by decide),
    h.2.2.2.2.2.2 2 (by decide)⟩

/-- Claim C6 describes the intended behaviour (the class docstring says the
materialized object "behaves like a python built-in list"), but the code is
broken: the materialized branch of `__contains__` is missing its `return`
(line 283), so `v in seq` evaluates `bool(None) = False` even when `v` is
stored, and `pop` (lines 356-362) evaluates `super(generated_list.self)` — a
typo — so it raises AttributeError instead of returning the last element. -/
theorem materialized_contains_pop_buggy :
    ((mkGeneratedList ([1, 2, 3] : List Int)).Expand).store = [1, 2, 3] ∧
    (2 : Int) ∈ ((mkGeneratedList ([1, 2, 3] : List Int)).Expand).store ∧
    truthy (((mkGeneratedList ([1, 2, 3] : List Int)).Expand).contains 2).1
      = false ∧
    (((mkGeneratedList ([1, 2, 3] : List Int)).Expand).pop none).1
      = Except.error () := by
  refine ⟨rfl, by decide, rfl, rfl⟩

/-- Counterexample to claim C7 as stated: deferred `__lt__` is not
element-wise lexicographic comparison — it is not decided at the first
differing index.  On `[3, 1]` versus `[2, 5]` the first index already
differs with 3 > 2, so lexicographic comparison says "not less", but the
deferred `__lt__` skips that pair (its per-pair test `l < r` is falsy) and
returns True at the second pair. -/
theorem deferred_lt_not_lexicographic_counterexample :
    (mkGeneratedList ([3, 1] : List Int)).lt [2, 5] = true ∧
    lex_lt ([3, 1] : List Int) [2, 5] = false := by decide

theorem seq_cmp_eq_lex {α : Type} [LinearOrder α] :
    ∀ (prod other : List α),
      sequence_comparation (fun r => decide (r ≠ 0))
        (fun x y => if x < y then (-1 : Int) else if y < x then 1 else 0)
        1 (-1) 0 prod other = lex_cmp prod other := by
  intro prod
  induction prod with
  | nil => intro other; cases other <;> rfl
  | cons x xs ih =>
    intro other
    cases other with
    | nil => rfl
    | cons y ys =>
      by_cases hxy : x < y
      · simp [sequence_comparation, lex_cmp, hxy]
      · by_cases hyx : y < x
        · simp [sequence_comparation, lex_cmp, hxy, hyx]
        · simp only [sequence_comparation, lex_cmp, if_neg hxy, if_neg hyx]
          simpa using ih ys

theorem seq_eq_eq_beq {α : Type} [DecidableEq α] :
    ∀ (prod other : List α),
      sequence_comparation (fun b => b) (fun x y => ! (x == y))
        true true false prod other = ! (decide (prod = other)) := by
  intro prod
  induction prod with
  | nil => intro other; cases other <;> simp [sequence_comparation]
  | cons x xs ih =>
    intro other
    cases other with
    | nil => simp [sequence_comparation]
    | cons y ys =>
      by_cases hxy : x = y
      · subst hxy
        simp [sequence_comparation, ih ys]
      · simp [sequence_comparation, hxy]

theorem seq_lt_eq_any {α : Type} [LinearOrder α] :
    ∀ (prod other : List α),
      sequence_comparation (fun b => b) (fun x y => decide (x < y))
        false true false prod other
        = (((prod.zip other).any fun p => decide (p.1 < p.2)) ||
            decide (prod.length < other.length)) := by
  intro prod
  induction prod with
  | nil =>
    intro other
    cases other <;> simp [sequence_comparation]
  | cons x xs ih =>
    intro other
    cases other with
    | nil => simp [sequence_comparation]
    | cons y ys =>
      by_cases hxy : x < y
      · simp [sequence_comparation, hxy]
      · simp [sequence_comparation, hxy, ih ys, Nat.succ_lt_succ_iff]

/-- Claim C7 amended: while deferred and compared against an iterable,
`__cmp__` is exact lexicographic comparison and `__eq__` exact sequence
equality (both short-circuit at the first differing pair, a length mismatch
with an equal shared front making the shorter side smaller); but `__lt__`
short-circuits at the first pair satisfying `<` rather than the first
differing pair — it returns True iff some aligned pair is strictly
increasing or the left side is strictly shorter — which disagrees with
lexicographic order; and a deferred comparison with a non-iterable operand
raises (its fallback calls the unbound name `Expand`) instead of
materializing and comparing. -/
theorem deferred_comparison_amended :
    ∀ (α : Type) [LinearOrder α] (prod other : List α),
      (mkGeneratedList prod).cmp other = Except.ok (lex_cmp prod other) ∧
      (mkGeneratedList prod).eq other = decide (prod = other) ∧
      (mkGeneratedList prod).lt other
        = (((prod.zip other).any fun p => decide (p.1 < p.2)) ||
            decide (prod.length < other.length)) ∧
      (mkGeneratedList prod).compare_noniterable = Except.error () := by
  intro α _ prod other
  refine ⟨?_, ?_, ?_, rfl⟩
  · have h := seq_cmp_eq_lex (α := α) prod other
    simp only [generated_list.cmp, mkGeneratedList]
    rw [h]
  · simp [generated_list.eq, mkGeneratedList, seq_eq_eq_beq]
  · simp [generated_list.lt, mkGeneratedList, seq_lt_eq_any]

theorem getslice_filter_none {α : Type} (s e : Int) :
    ∀ (l : List α) (idx : Nat), e < (idx : Int) →
      (List.enumFrom idx l).filter (fun p => decide (s ≤ (p.1 : Int)) &&
        decide ((p.1 : Int) ≤ e)) = [] := by
  intro l
  induction l with
  | nil => intro idx h; rfl
  | cons x xs ih =>
    intro idx h
    have h1 : ¬ ((idx : Int) ≤ e) := by omega
    simpa [List.enumFrom, List.filter_cons, h1] using ih (idx + 1) (by omega)

theorem getslice_aux_fst {α : Type} (s e : Int) :
    ∀ (l : List α) (idx : Nat),
      (getslice_aux s (some e) l idx).1
        = ((List.enumFrom idx l).filter (fun p => decide (s ≤ (p.1 : Int)) &&
            decide ((p.1 : Int) ≤ e))).map Prod.snd := by
  intro l
  induction l with
  | nil => intro idx; rfl
  | cons x xs ih =>
    intro idx
    by_cases h1 : (idx : Int) < s
    · have h2 : ¬ (s ≤ (idx : Int)) := by omega
      simp [getslice_aux, h1, h2, List.enumFrom, ih (idx + 1)]
    · by_cases h3 : (idx : Int) > e
      · have h4 : ¬ ((idx : Int) ≤ e) := by omega
        simp [getslice_aux, h1, h3, h4, List.enumFrom,
          getslice_filter_none s e xs (idx + 1) (by omega)]
      · have h5 : s ≤ (idx : Int) := by omega
        have h6 : (idx : Int) ≤ e := by omega
        simp [getslice_aux, h1, h3, h5, h6, List.enumFrom, ih (idx + 1)]

theorem getslice_aux_snd {α : Type} (s e : Int) :
    ∀ (l : List α) (idx : Nat),
      (((getslice_aux s (some e) l idx).2 : Nat) : Int) ≤ e ↔
        (idx : Int) + l.length ≤ e := by
  intro l
  induction l with
  | nil => intro idx; simp [getslice_aux]
  | cons x xs ih =>
    intro idx
    by_cases h1 : (idx : Int) < s
    · have hstep : getslice_aux s (some e) (x :: xs) idx
          = getslice_aux s (some e) xs (idx + 1) := by
        simp [getslice_aux, h1]
      rw [hstep, ih (idx + 1)]
      simp only [List.length_cons]
      omega
    · by_cases h3 : (idx : Int) > e
      · have hstep : getslice_aux s (some e) (x :: xs) idx = ([], idx) := by
          simp [getslice_aux, h1, h3]
        rw [hstep]
        simp only [List.length_cons]
        omega
      · have hstep : (getslice_aux s (some e) (x :: xs) idx).2
            = (getslice_aux s (some e) xs (idx + 1)).2 := by
          simp [getslice_aux, h1, h3]
        rw [hstep, ih (idx + 1)]
        simp only [List.length_cons]
        omega

theorem slice_filter_none {α : Type} (s e st : Int) :
    ∀ (l : List α) (idx : Nat), e < (idx : Int) →
      (List.enumFrom idx l).filter (fun p => decide (s ≤ (p.1 : Int)) &&
        decide ((p.1 : Int) ≤ e) && (((p.1 : Int) - s) % st == 0)) = [] := by
  intro l
  induction l with
  | nil => intro idx h; rfl
  | cons x xs ih =>
    intro idx h
    have h1 : ¬ ((idx : Int) ≤ e) := by omega
    simpa [List.enumFrom, List.filter_cons, h1] using ih (idx + 1) (by omega)

theorem slice_scan_eq_filter {α : Type} (s e st : Int) :
    ∀ (l : List α) (idx : Nat),
      slice_scan s (some e) st l idx
        = ((List.enumFrom idx l).filter (fun p => decide (s ≤ (p.1 : Int)) &&
            decide ((p.1 : Int) ≤ e) &&
            (((p.1 : Int) - s) % st == 0))).map Prod.snd := by
  intro l
  induction l with
  | nil => intro idx; rfl
  | cons x xs ih =>
    intro idx
    by_cases h1 : (idx : Int) < s
    · have h2 : ¬ (s ≤ (idx : Int)) := by omega
      simp [slice_scan, h1, h2, List.enumFrom, ih (idx + 1)]
    · by_cases h3 : (idx : Int) > e
      · have h4 : ¬ ((idx : Int) ≤ e) := by omega
        simp [slice_scan, h1, h3, h4, List.enumFrom,
          slice_filter_none s e st xs (idx + 1) (by omega)]
      · have h5 : s ≤ (idx : Int) := by omega
        have h6 : (idx : Int) ≤ e := by omega
        by_cases h7 : ((idx : Int) - s) % st = 0
        · simp [slice_scan, h1, h3, h5, h6, h7, List.enumFrom, ih (idx + 1)]
        · simp [slice_scan, h1, h3, h5, h6, h7, List.enumFrom, ih (idx + 1)]

/-- Counterexample to claim C5 as stated: a forward slice does not return
the elements at indices at least `start` and strictly below `stop`.  On a
producer yielding `[10, 20]` the slice `seq[0:0]` (standard semantics: `[]`)
returns `[10]`: the scanning loop only breaks once the index exceeds `stop`,
so position `stop` itself is included. -/
theorem getslice_stop_inclusive_counterexample :
    ((mkGeneratedList ([10, 20] : List Int)).getslice (some 0) (some 0)).1
      = Except.ok [10] ∧ ([10] : List Int) ≠ [] := by
  constructor
  · rfl
  · simp

/-- Claim C5 amended: on a deferred generated_list, a plain forward slice
`seq[start:stop]` (`__getslice__`) with `0 ≤ start`, `0 ≤ stop` leaves the
object deferred and returns the produced elements at the positions in the
CLOSED interval `[start, stop]` — one more than the standard half-open
contract — when `stop < N`, and raises IndexError exactly when `stop ≥ N`
(not only when `stop > N`); an extended forward slice `seq[start:stop:step]`
(`__getitem__`, `start ≤ stop`) never raises, leaves the object deferred and
returns the elements at positions in `[start, min(stop, N-1)]` stepping by
the magnitude of `step`; an integer subscript position `≥ N` raises
IndexError (after materializing). -/
theorem slices_amended :
    ∀ (α : Type) (prod : List α) (s e : Int) (stp : Option Int) (i : Int),
      0 ≤ s → 0 ≤ e →
      ((mkGeneratedList prod).getslice (some s) (some e)
        = (if (prod.length : Int) ≤ e then (Except.error (), mkGeneratedList prod)
           else (Except.ok (slice_incl s e 1 prod), mkGeneratedList prod))) ∧
      (s ≤ e → (mkGeneratedList prod).getitem_slice (some s) (some e) stp
        = (Except.ok (slice_incl s e (norm_step stp) prod),
            mkGeneratedList prod)) ∧
      ((prod.length : Int) ≤ i →
        ((mkGeneratedList prod).getitem_int i).1 = Except.error ()) := by
  intro α prod s e stp i hs he
  refine ⟨?_, ?_, ?_⟩
  · have hguard : getslice_bounds_ok (some s) (some e) = true := by
      simp [getslice_bounds_ok, hs, he]
    simp only [generated_list.getslice, mkGeneratedList, hguard, if_true]
    have hsnd := getslice_aux_snd s e prod 0
    simp only [Nat.cast_zero, zero_add] at hsnd
    by_cases hNe : (prod.length : Int) ≤ e
    · have : decide (((getslice_aux s (some e) prod 0).2 : Int) ≤ e) = true := by
        simp [hsnd, hNe]
      rw [this]
      simp [hNe]
    · have : decide (((getslice_aux s (some e) prod 0).2 : Int) ≤ e) = false := by
        simp [hsnd, hNe]
      rw [this]
      have hfe : (List.enumFrom 0 prod).filter
            (fun p => decide (s ≤ (p.1 : Int)) && decide ((p.1 : Int) ≤ e))
          = (List.enumFrom 0 prod).filter
            (fun p => decide (s ≤ (p.1 : Int)) && decide ((p.1 : Int) ≤ e) &&
              (((p.1 : Int) - s) % 1 == 0)) := by
        apply List.filter_congr
        intro p hp
        simp [Int.emod_one]
      simp only [Bool.false_eq_true, if_false, if_neg hNe]
      rw [getslice_aux_fst s e prod 0, hfe]
      simp [slice_incl, List.enum]
  · intro hse
    have hguard : slice_cond (some s) (some e) = true := by
      simp [slice_cond, hs, hse]
    simp only [generated_list.getitem_slice, mkGeneratedList, hguard, if_true]
    have hstep : (match stp with
        | none => (1 : Int)
        | some k => if k == 0 then 1 else if k < 0 then -k else k)
        = norm_step stp := by
      cases stp <;> rfl
    rw [hstep, slice_scan_eq_filter s e (norm_step stp) prod 0]
    simp [slice_incl, List.enum]
  · intro hN
    simp only [generated_list.getitem_int, generated_list.Expand,
      mkGeneratedList, List.nil_append]
    rw [pyListGet, dif_neg (by omega), dif_neg (by omega)]

theorem slices_amended_witness :
    (0 : Int) ≤ 1 ∧ (0 : Int) ≤ 2 ∧ (1 : Int) ≤ 2 ∧
    (3 : Int) ≤ 5 ∧
    ((mkGeneratedList ([10, 20, 30] : List Int)).getslice (some 1) (some 2)
      = (Except.ok [20, 30], mkGeneratedList [10, 20, 30])) ∧
    ((mkGeneratedList ([10, 20, 30] : List Int)).getitem_slice (some 1)
        (some 2) (some (-2))
      = (Except.ok [20], mkGeneratedList [10, 20, 30])) ∧
    ((mkGeneratedList ([10, 20, 30] : List Int)).getitem_int 5).1
      = Except.error () := by
  have h := slices_amended Int [10, 20, 30] 1 2 (some (-2)) 5
    (by decide) (by decide)
  exact ⟨by decide, by decide, by decide, by decide, h.1, h.2.1 (by decide),
    h.2.2 (by decide)⟩

end XrefTag
